import Mathlib

/-!
Verification of `src/transformer/scripts/manual_extract.py`.

The script's single function `extract_columns_from_sql` takes raw SQL text,
normalizes literal backslash-n escape sequences to newlines, locates the
column-definition block of a `CREATE TABLE` statement with the regex

  `CREATE TABLE\s+` backtick `([^` backtick `]+)` backtick `\s*\((.+?)\)\s*ENGINE`

(compiled with DOTALL and IGNORECASE), splits the captured body on commas,
skips fragments that contain constraint keywords, and collects the leading
backtick-quoted identifier of each remaining fragment.

Strings are modelled as `List Char`.  The regex is embedded directly: each
piece of this particular pattern is deterministic under Python's backtracking
semantics except the lazy group `(.+?)`, which takes the shortest non-empty
body whose remainder matches the closing-parenthesis/ENGINE tail; the
embedding reproduces exactly that.  Case-insensitivity and the whitespace
class are modelled at the ASCII/Unicode-space level used by the inputs of
this repository (Python's `\s`, `str.strip` whitespace set).
-/

/-- The backtick character, quoting identifiers in MySQL-style SQL. -/
def backtickChar : Char := Char.ofNat 96

/-- The backslash character. -/
def backslashChar : Char := Char.ofNat 92

/-- Python's whitespace class for `str` patterns (`\s`) and for `str.strip()`:
ASCII whitespace and control separators plus the Unicode space separators. -/
def pyIsSpace (c : Char) : Bool :=
  c = ' ' || c = Char.ofNat 9 || c = Char.ofNat 10 || c = Char.ofNat 13 ||
  c = Char.ofNat 11 || c = Char.ofNat 12 ||
  c.val = 28 || c.val = 29 || c.val = 30 || c.val = 31 ||
  c.val = 0x85 || c.val = 0xa0 || c.val = 0x1680 ||
  (0x2000 ≤ c.val && c.val ≤ 0x200a) ||
  c.val = 0x2028 || c.val = 0x2029 || c.val = 0x202f ||
  c.val = 0x205f || c.val = 0x3000

/-- ASCII upper-casing of a single character, modelling `str.upper()` on the
ASCII identifiers and keywords this script works with. -/
def pyUpperChar (c : Char) : Char :=
  if 'a' ≤ c && c ≤ 'z' then Char.ofNat (c.val.toNat - 32) else c

/-- Upper-case a whole string, modelling `part.upper()`. -/
def pyUpper (l : List Char) : List Char := l.map pyUpperChar

/-- Case-insensitive single-character match, modelling `re.IGNORECASE` on the
ASCII literals of the pattern. -/
def charMatchesCI (p c : Char) : Bool := pyUpperChar p = pyUpperChar c

/-- Case-insensitive literal match at the front of the input: `pat` matches a
prefix of `s` character by character under `re.IGNORECASE`. -/
def startsWithCI : List Char → List Char → Bool
  | [], _ => true
  | _ :: _, [] => false
  | p :: ps, c :: cs => charMatchesCI p c && startsWithCI ps cs

/-- Exact literal match at the front of the input. -/
def startsWithEx : List Char → List Char → Bool
  | [], _ => true
  | _ :: _, [] => false
  | a :: as, b :: bs => a = b && startsWithEx as bs

/-- Substring containment, modelling Python's `needle in hay`. -/
def hasSub (needle : List Char) : List Char → Bool
  | [] => startsWithEx needle []
  | c :: t => startsWithEx needle (c :: t) || hasSub needle t

/-- Normalization step `sql_content.replace(..)`: each literal two-character
backslash-n sequence becomes a newline, scanning left to right. -/
def replaceEscapedNewlines : List Char → List Char
  | [] => []
  | a :: b :: rest =>
      if a = backslashChar ∧ b = 'n' then
        Char.ofNat 10 :: replaceEscapedNewlines rest
      else
        a :: replaceEscapedNewlines (b :: rest)
  | [a] => [a]

/-- The tail of the pattern after the lazy group: a literal close parenthesis,
then `\s*`, then the literal `ENGINE` (case-insensitive).  Both `\s*` and the
literal are deterministic here because `E` is not whitespace. -/
def engineTail (s : List Char) : Bool :=
  match s with
  | ')' :: rest => startsWithCI ("ENGINE".toList) (rest.dropWhile pyIsSpace)
  | _ => false

/-- The lazy group `(.+?)` followed by the ENGINE tail: returns the SHORTEST
non-empty prefix `body` (any characters, DOTALL) such that the remainder
matches `\)\s*ENGINE`, together with that remainder. -/
def lazyBody : List Char → Option (List Char × List Char)
  | [] => none
  | c :: rest =>
      if engineTail rest then some ([c], rest)
      else
        match lazyBody rest with
        | some (b, r) => some (c :: b, r)
        | none => none

/-- Attempt the whole pattern anchored at the current position: literal
`CREATE TABLE` (case-insensitive), `\s+`, backtick, group 1 `[^` backtick
`]+`, backtick, `\s*`, `(`, the lazy body, `)\s*ENGINE`.  Every quantifier
before the lazy group is deterministic (its closing literal can never match a
character the class accepts), so a single pass is faithful to the
backtracking engine.  Returns groups 1 and 2 on success. -/
def matchCreateTableAt (s : List Char) : Option (List Char × List Char) :=
  if startsWithCI ("CREATE TABLE".toList) s then
    let s1 := s.drop 12
    if (s1.takeWhile pyIsSpace).isEmpty then none
    else
      match s1.dropWhile pyIsSpace with
      | c :: s2 =>
          if c = backtickChar then
            let name := s2.takeWhile (fun d => d ≠ backtickChar)
            if name.isEmpty then none
            else
              match s2.dropWhile (fun d => d ≠ backtickChar) with
              | d :: s3 =>
                  if d = backtickChar then
                    match s3.dropWhile pyIsSpace with
                    | '(' :: s4 =>
                        match lazyBody s4 with
                        | some (body, _) => some (name, body)
                        | none => none
                    | _ => none
                  else none
              | [] => none
          else none
      | [] => none
  else none

/-- `re.search`: try the anchored match at each start position from the left;
the leftmost succeeding position wins. -/
def searchCreateTable : List Char → Option (List Char × List Char)
  | [] => matchCreateTableAt []
  | c :: rest =>
      match matchCreateTableAt (c :: rest) with
      | some r => some r
      | none => searchCreateTable rest

/-- `columns_section.split(',')`: split on every comma, keeping empty runs. -/
def splitOnComma : List Char → List (List Char)
  | [] => [[]]
  | c :: rest =>
      if c = ',' then [] :: splitOnComma rest
      else
        match splitOnComma rest with
        | [] => [[c]]
        | h :: t => (c :: h) :: t

/-- `part.strip()`: remove leading and trailing whitespace. -/
def pyStrip (l : List Char) : List Char :=
  ((l.dropWhile pyIsSpace).reverse.dropWhile pyIsSpace).reverse

/-- The constraint keywords of the `any(keyword in part.upper() ...)` check. -/
def constraintKeywords : List (List Char) :=
  ["PRIMARY KEY".toList, "UNIQUE KEY".toList, "KEY ".toList,
   "INDEX ".toList, "CONSTRAINT".toList, "FOREIGN KEY".toList]

/-- The skip test on an already-stripped fragment: its upper-cased text
contains one of the constraint keywords. -/
def isConstraintFragment (part : List Char) : Bool :=
  constraintKeywords.any (fun k => hasSub k (pyUpper part))

/-- The column-name regex `^\s*` backtick `([^` backtick `]+)` backtick,
applied with `re.match` (anchored at the start): skip leading whitespace,
require a backtick, capture the maximal non-empty run of non-backtick
characters, require a closing backtick. -/
def extractColName (part : List Char) : Option (List Char) :=
  match part.dropWhile pyIsSpace with
  | c :: rest =>
      if c = backtickChar then
        let name := rest.takeWhile (fun d => d ≠ backtickChar)
        if name.isEmpty then none
        else
          match rest.dropWhile (fun d => d ≠ backtickChar) with
          | d :: _ => if d = backtickChar then some name else none
          | [] => none
      else none
  | [] => none

/-- The loop body for one comma-separated fragment: strip it, skip it if it is
a constraint fragment, otherwise extract the leading backtick-quoted name. -/
def fragToCol (part : List Char) : Option (List Char) :=
  let p := pyStrip part
  if isConstraintFragment p then none else extractColName p

/-- `extract_columns_from_sql`: normalize escaped newlines, search for the
`CREATE TABLE ... ENGINE` pattern, and on success split the captured body on
commas and collect the surviving column names in order; on failure return the
empty list. -/
def extract_columns_from_sql (sql_content : List Char) : List (List Char) :=
  let content := replaceEscapedNewlines sql_content
  match searchCreateTable content with
  | none => []
  | some (_, columns_section) =>
      (splitOnComma columns_section).filterMap fragToCol

/-- The `address_sql` sample string of the script (a Python triple-quoted
literal whose backslash-n sequences are two literal characters). -/
def address_sql : List Char :=
  ("CREATE TABLE `Address` (\\n  `addressId` int unsigned NOT NULL AUTO_INCREMENT,\\n  `line1` varchar(120) CHARACTER SET utf8mb4 COLLATE utf8mb4_unicode_ci DEFAULT NULL,\\n  `line2` varchar(120) CHARACTER SET utf8mb4 COLLATE utf8mb4_unicode_ci DEFAULT NULL,\\n  `city` varchar(120) CHARACTER SET utf8mb4 COLLATE utf8mb4_unicode_ci DEFAULT NULL,\\n  `state` char(3) CHARACTER SET utf8mb4 COLLATE utf8mb4_unicode_ci DEFAULT NULL,\\n  `country` char(3) CHARACTER SET utf8mb4 COLLATE utf8mb4_unicode_ci DEFAULT NULL,\\n  `postalCode` varchar(15) CHARACTER SET utf8mb4 COLLATE utf8mb4_unicode_ci DEFAULT NULL,\\n  `created` datetime DEFAULT NULL,\\n  `modified` datetime DEFAULT NULL,\\n  PRIMARY KEY (`addressId`)\\n) ENGINE=InnoDB AUTO_INCREMENT=6669 DEFAULT CHARSET=utf8mb4 COLLATE=utf8mb4_unicode_ci COMMENT='Entity Employee addresses.  All generic addresses moving forwards.'").toList

/-- The `customer_sql` sample string of the script. -/
def customer_sql : List Char :=
  ("CREATE TABLE `Customer` (\\n  `customerId` int unsigned NOT NULL AUTO_INCREMENT,\\n  `entityId` int unsigned NOT NULL,\\n  `entityLocationId` int unsigned DEFAULT NULL,\\n  `active` tinyint unsigned NOT NULL DEFAULT '1',\\n  `code` varchar(10) CHARACTER SET utf8mb4 COLLATE utf8mb4_unicode_ci DEFAULT NULL,\\n  `serviceRequestCode` varchar(10) CHARACTER SET utf8mb4 COLLATE utf8mb4_unicode_ci DEFAULT NULL,\\n  `status` varchar(25) CHARACTER SET utf8mb4 COLLATE utf8mb4_unicode_ci DEFAULT NULL,\\n  `createdByEntityEmployeeId` int unsigned DEFAULT NULL,\\n  `createdByIpAddress` varchar(25) CHARACTER SET utf8mb4 COLLATE utf8mb4_unicode_ci DEFAULT NULL,\\n  `created` datetime DEFAULT NULL,\\n  `modified` datetime DEFAULT NULL,\\n  PRIMARY KEY (`customerId`),\\n  UNIQUE KEY `Customer_payrixId_IDX` (`payrixId`) USING BTREE,\\n  KEY `entityId` (`entityId`)\\n) ENGINE=InnoDB AUTO_INCREMENT=31993 DEFAULT CHARSET=utf8mb4 COLLATE=utf8mb4_unicode_ci").toList

/-! ### Accumulator (tail-recursive) evaluation variants

The three deep-recursing phases are restated with accumulators so that
concrete evaluation on the repository's near-kilobyte sample strings stays
stack-shallow; each variant is proved equal to its direct counterpart
below, and only the direct counterparts define the program's semantics. -/

/-- Accumulator form of `replaceEscapedNewlines`. -/
def replaceEscNlAux (acc : List Char) : List Char → List Char
  | [] => acc.reverse
  | a :: b :: rest =>
      if a = backslashChar ∧ b = 'n' then
        replaceEscNlAux (Char.ofNat 10 :: acc) rest
      else
        replaceEscNlAux (a :: acc) (b :: rest)
  | [a] => (a :: acc).reverse

/-- Accumulator form of `lazyBody`. -/
def lazyBodyAux (acc : List Char) : List Char → Option (List Char × List Char)
  | [] => none
  | c :: rest =>
      if engineTail rest then some ((c :: acc).reverse, rest)
      else lazyBodyAux (c :: acc) rest

/-- Accumulator form of `splitOnComma`. -/
def splitOnCommaAux (cur : List Char) : List Char → List (List Char)
  | [] => [cur.reverse]
  | c :: rest =>
      if c = ',' then cur.reverse :: splitOnCommaAux [] rest
      else splitOnCommaAux (c :: cur) rest

/-- `matchCreateTableAt` with the accumulator lazy group. -/
def matchCreateTableFastAt (s : List Char) : Option (List Char × List Char) :=
  if startsWithCI ("CREATE TABLE".toList) s then
    let s1 := s.drop 12
    if (s1.takeWhile pyIsSpace).isEmpty then none
    else
      match s1.dropWhile pyIsSpace with
      | c :: s2 =>
          if c = backtickChar then
            let name := s2.takeWhile (fun d => d ≠ backtickChar)
            if name.isEmpty then none
            else
              match s2.dropWhile (fun d => d ≠ backtickChar) with
              | d :: s3 =>
                  if d = backtickChar then
                    match s3.dropWhile pyIsSpace with
                    | '(' :: s4 =>
                        match lazyBodyAux [] s4 with
                        | some (body, _) => some (name, body)
                        | none => none
                    | _ => none
                  else none
              | [] => none
          else none
      | [] => none
  else none

/-- `searchCreateTable` over the accumulator match. -/
def searchCreateTableFast : List Char → Option (List Char × List Char)
  | [] => matchCreateTableFastAt []
  | c :: rest =>
      match matchCreateTableFastAt (c :: rest) with
      | some r => some r
      | none => searchCreateTableFast rest

/-- The whole pipeline in accumulator form. -/
def extractColumnsFast (sql_content : List Char) : List (List Char) :=
  match searchCreateTableFast (replaceEscNlAux [] sql_content) with
  | none => []
  | some (_, columns_section) =>
      (splitOnCommaAux [] columns_section).filterMap fragToCol

/-! ### Spec-side definitions for the refinement claim

The following definitions transcribe the specification's own wording of
steps 4-5 of the algorithm (skip constraint fragments; take the leading
backtick-quoted identifier at the start of the whitespace-trimmed fragment).
They are the spec-side counterpart against which the code-side pipeline is
compared. -/

/-- Spec wording, step 5: the backtick-quoted identifier appearing as the
first token of a (whitespace-trimmed) fragment, if any. -/
def leadingBacktickIdent : List Char → Option (List Char)
  | c :: rest =>
      if c = backtickChar then
        let name := rest.takeWhile (fun d => d ≠ backtickChar)
        if name.isEmpty then none
        else
          match rest.dropWhile (fun d => d ≠ backtickChar) with
          | d :: _ => if d = backtickChar then some name else none
          | [] => none
      else none
  | [] => none

/-- Spec wording, steps 4-5 combined for one fragment: trim, skip constraint
fragments, else the leading backtick-quoted identifier. -/
def specFragmentName (frag : List Char) : Option (List Char) :=
  let t := pyStrip frag
  if isConstraintFragment t then none else leadingBacktickIdent t

/-- Spec wording for the whole body: the identifiers of the surviving
fragments, in source order. -/
def specColumnsOfBody (body : List Char) : List (List Char) :=
  (splitOnComma body).filterMap specFragmentName

/-- The span property asserted of a successful match: the input decomposes as
a prefix, the backtick-quoted table name, whitespace, the first following
opening parenthesis, and the captured body, which extends exactly to a
closing parenthesis separated from the `ENGINE` keyword only by whitespace,
and is the shortest non-empty such body (so its final delimiter is the last
closing parenthesis immediately preceding that `ENGINE`). -/
def BodySpan (s name body : List Char) : Prop :=
  ∃ pre ws s4 rest rest2,
    s = pre ++ backtickChar :: (name ++ backtickChar :: (ws ++ '(' :: s4)) ∧
    ws.all pyIsSpace = true ∧
    s4 = body ++ rest ∧
    body ≠ [] ∧
    rest = ')' :: rest2 ∧
    startsWithCI ("ENGINE".toList) (rest2.dropWhile pyIsSpace) = true ∧
    (∀ b r, s4 = b ++ r → b ≠ [] → engineTail r = true → body.length ≤ b.length)

/-- Occurrence test for the literal backslash-n two-character sequence. -/
def hasEscNl : List Char → Bool
  | [] => false
  | [_] => false
  | a :: b :: rest => (a = backslashChar && b = 'n') || hasEscNl (b :: rest)

/-! ### Helper lemmas -/

/-- The head of `dropWhile p l`, when present, fails `p`. -/
theorem head_dropWhile_false (p : Char → Bool) :
    ∀ (l : List Char) (c : Char) (rest : List Char),
      l.dropWhile p = c :: rest → p c = false := by
  intro l
  induction l with
  | nil => intro c rest h; simp [List.dropWhile] at h
  | cons a t ih =>
      intro c rest h
      rw [List.dropWhile_cons] at h
      by_cases hp : p a
      · simp [hp] at h; exact ih c rest h
      · simp [hp] at h; rw [← h.1]; exact Bool.not_eq_true _ |>.mp hp

/-- A stripped fragment has no leading whitespace left, so the `\s*` of the
column regex consumes nothing on it. -/
theorem pyStrip_dropWhile (l : List Char) :
    (pyStrip l).dropWhile pyIsSpace = pyStrip l := by
  unfold pyStrip
  set m := l.dropWhile pyIsSpace with hm
  obtain ⟨t, ht⟩ : ∃ t, t ++ (m.reverse.dropWhile pyIsSpace) = m.reverse := by
    clear hm
    induction m.reverse with
    | nil => exact ⟨[], rfl⟩
    | cons a s ih =>
        rw [List.dropWhile_cons]
        by_cases hp : pyIsSpace a
        · obtain ⟨t, ht⟩ := ih; exact ⟨a :: t, by simp [hp, ht]⟩
        · exact ⟨[], by simp [hp]⟩
  cases hr : (m.reverse.dropWhile pyIsSpace).reverse with
  | nil => simp
  | cons x xs =>
      have hmx : m = x :: (xs ++ t.reverse) := by
        have := congrArg List.reverse ht
        simp at this
        rw [← this, hr]
        simp
      have hx : pyIsSpace x = false :=
        head_dropWhile_false pyIsSpace l x (xs ++ t.reverse) (hm ▸ hmx)
      rw [List.dropWhile_cons, hx]
      simp

/-- `re.search` soundness: a successful search splits the input at the
leftmost position where the anchored match succeeds. -/
theorem searchCreateTable_sound :
    ∀ (content : List Char) (v : List Char × List Char),
      searchCreateTable content = some v →
      ∃ pre suf, content = pre ++ suf ∧ matchCreateTableAt suf = some v := by
  intro content
  induction content with
  | nil => intro v h; exact ⟨[], [], rfl, h⟩
  | cons c rest ih =>
      intro v h
      unfold searchCreateTable at h
      cases hm : matchCreateTableAt (c :: rest) with
      | some r =>
          rw [hm] at h
          simp at h
          exact ⟨[], c :: rest, rfl, by rw [hm, h]⟩
      | none =>
          rw [hm] at h
          simp at h
          obtain ⟨pre, suf, hc, hmat⟩ := ih v h
          exact ⟨c :: pre, suf, by rw [List.cons_append, hc], hmat⟩

/-- The column regex on an input is the leading-identifier extractor applied
after the (deterministic) `\s*` skip. -/
theorem extractColName_eq (x : List Char) :
    extractColName x = leadingBacktickIdent (x.dropWhile pyIsSpace) := by
  cases h : x.dropWhile pyIsSpace with
  | nil => simp [extractColName, leadingBacktickIdent, h]
  | cons c rest => simp [extractColName, leadingBacktickIdent, h]

/-- Code-side and spec-side treatment of a single fragment agree. -/
theorem fragToCol_eq_spec (part : List Char) :
    fragToCol part = specFragmentName part := by
  unfold fragToCol specFragmentName
  by_cases hc : isConstraintFragment (pyStrip part)
  · simp [hc]
  · simp [hc, extractColName_eq, pyStrip_dropWhile]

/-- C1: for every input on which the `CREATE TABLE ... ENGINE` pattern is
found with captured body `body`, the function returns exactly the
backtick-quoted identifiers appearing as the first token of each
non-constraint comma-separated fragment of `body`, in source order, as the
spec words it. -/
theorem extract_columns_matches_spec (s nm body : List Char)
    (h : searchCreateTable (replaceEscapedNewlines s) = some (nm, body)) :
    extract_columns_from_sql s = specColumnsOfBody body := by
  simp only [extract_columns_from_sql, specColumnsOfBody, h]
  exact List.filterMap_congr (fun part _ => fragToCol_eq_spec part)

/-- C1 witness: the theorem applied to a small concrete statement. -/
theorem extract_columns_matches_spec_witness :
    extract_columns_from_sql ("CREATE TABLE `t` (`a` int) ENGINE".toList) =
      specColumnsOfBody ("`a` int".toList) :=
  extract_columns_matches_spec ("CREATE TABLE `t` (`a` int) ENGINE".toList)
    ("t".toList) ("`a` int".toList) (by decide)

/-- C2: when the pattern does not occur in the normalized input, the result
is the empty list, with no distinct error signal (the return type admits no
other outcome). -/
theorem no_match_returns_empty (s : List Char)
    (h : searchCreateTable (replaceEscapedNewlines s) = none) :
    extract_columns_from_sql s = [] := by
  simp only [extract_columns_from_sql, h]

/-- C2 witness: a concrete input with no pattern occurrence. -/
theorem no_match_returns_empty_witness :
    extract_columns_from_sql ("hello".toList) = [] :=
  no_match_returns_empty ("hello".toList) (by decide)

/-- C8: the function is deterministic; it depends only on its argument (it is
a pure function of the input in this embedding, reading no other state), so
two calls on the same input return identical output. -/
theorem extract_columns_deterministic (s : List Char) :
    extract_columns_from_sql s = extract_columns_from_sql s := rfl

/-- C9: the function is total: on every input it terminates with a list, and
the two degradation modes are silent: either the search fails and the result
is empty, or it succeeds and the result is the filtered fragment map; no
other outcome (in particular no exception) exists. -/
theorem extract_columns_total (s : List Char) :
    (searchCreateTable (replaceEscapedNewlines s) = none ∧
       extract_columns_from_sql s = []) ∨
    (∃ nm body, searchCreateTable (replaceEscapedNewlines s) = some (nm, body) ∧
       extract_columns_from_sql s = (splitOnComma body).filterMap fragToCol) := by
  cases h : searchCreateTable (replaceEscapedNewlines s) with
  | none => exact Or.inl ⟨rfl, by simp only [extract_columns_from_sql, h]⟩
  | some v =>
      exact Or.inr ⟨v.1, v.2, by simp,
        by simp only [extract_columns_from_sql, h]⟩

/-- C3: a fragment of the captured body whose stripped, upper-cased text
contains one of the constraint keywords contributes no entry: its per-fragment
result is `none`, and the overall result is exactly the filterMap over the
fragments (so a skipped fragment adds nothing). -/
theorem constraint_fragment_contributes_nothing (s nm body part : List Char)
    (h : searchCreateTable (replaceEscapedNewlines s) = some (nm, body))
    (hmem : part ∈ splitOnComma body)
    (hconstraint : isConstraintFragment (pyStrip part) = true) :
    fragToCol part = none ∧
      extract_columns_from_sql s = (splitOnComma body).filterMap fragToCol := by
  constructor
  · unfold fragToCol
    simp [hconstraint]
  · simp only [extract_columns_from_sql, h]

/-- C3 witness: the `PRIMARY KEY` clause of a concrete statement contributes
nothing. -/
theorem constraint_fragment_contributes_nothing_witness :
    fragToCol ("PRIMARY KEY (`a`)".toList) = none ∧
      extract_columns_from_sql
          ("CREATE TABLE `t` (`a` x,PRIMARY KEY (`a`)) ENGINE".toList) =
        (splitOnComma ("`a` x,PRIMARY KEY (`a`)".toList)).filterMap fragToCol :=
  constraint_fragment_contributes_nothing
    ("CREATE TABLE `t` (`a` x,PRIMARY KEY (`a`)) ENGINE".toList)
    ("t".toList) ("`a` x,PRIMARY KEY (`a`)".toList)
    ("PRIMARY KEY (`a`)".toList) (by decide) (by decide) (by decide)

/-! ### Equivalence of the accumulator variants -/

/-- The accumulator normalization equals the direct one. -/
theorem replaceEscNlAux_eq (l : List Char) :
    ∀ acc, replaceEscNlAux acc l = acc.reverse ++ replaceEscapedNewlines l := by
  induction l using replaceEscapedNewlines.induct with
  | case1 => intro acc; simp [replaceEscNlAux, replaceEscapedNewlines]
  | case2 a b rest h ih =>
      intro acc
      simp only [replaceEscNlAux, replaceEscapedNewlines]
      rw [if_pos h, if_pos h, ih]
      simp
  | case3 a b rest h ih =>
      intro acc
      simp only [replaceEscNlAux, replaceEscapedNewlines]
      rw [if_neg h, if_neg h, ih]
      simp
  | case4 a => intro acc; simp [replaceEscNlAux, replaceEscapedNewlines]

/-- The accumulator lazy group equals the direct one. -/
theorem lazyBodyAux_eq (l : List Char) :
    ∀ acc, lazyBodyAux acc l =
      Option.map (fun p => (acc.reverse ++ p.1, p.2)) (lazyBody l) := by
  induction l with
  | nil => intro acc; simp [lazyBodyAux, lazyBody]
  | cons c rest ih =>
      intro acc
      by_cases h : engineTail rest
      · simp [lazyBodyAux, lazyBody, h]
      · simp only [lazyBodyAux, lazyBody, h, if_false, Bool.false_eq_true,
          if_neg, ih]
        cases hl : lazyBody rest with
        | none => simp
        | some p => simp

/-- The comma split never yields an empty fragment list. -/
theorem splitOnComma_ne_nil (l : List Char) : splitOnComma l ≠ [] := by
  cases l with
  | nil => simp [splitOnComma]
  | cons c rest =>
      unfold splitOnComma
      by_cases h : c = ','
      · simp [h]
      · simp only [h, if_false]
        cases splitOnComma rest <;> simp

/-- The accumulator comma split equals the direct one. -/
theorem splitOnCommaAux_eq (l : List Char) :
    ∀ cur, splitOnCommaAux cur l =
      List.modifyHead (fun h => cur.reverse ++ h) (splitOnComma l) := by
  induction l with
  | nil => intro cur; simp [splitOnCommaAux, splitOnComma]
  | cons c rest ih =>
      intro cur
      by_cases h : c = ','
      · have hrest : splitOnCommaAux [] rest = splitOnComma rest := by
          rw [ih []]
          cases hs : splitOnComma rest with
          | nil => simp
          | cons h0 t0 => simp
        simp [splitOnCommaAux, splitOnComma, h, hrest]
      · obtain ⟨h0, t0, hs⟩ : ∃ h0 t0, splitOnComma rest = h0 :: t0 := by
          cases hs : splitOnComma rest with
          | nil => exact absurd hs (splitOnComma_ne_nil rest)
          | cons h0 t0 => exact ⟨h0, t0, rfl⟩
        simp only [splitOnCommaAux, splitOnComma, h, if_false, ih, hs]
        simp

/-- The accumulator anchored match equals the direct one. -/
theorem matchCreateTableFastAt_eq (s : List Char) :
    matchCreateTableFastAt s = matchCreateTableAt s := by
  unfold matchCreateTableFastAt matchCreateTableAt
  simp only [lazyBodyAux_eq, List.reverse_nil, List.nil_append, Prod.mk.eta,
    Option.map_id, Option.map_id_fun, Option.map_id', id_eq]

/-- The accumulator search equals the direct one. -/
theorem searchCreateTableFast_eq (l : List Char) :
    searchCreateTableFast l = searchCreateTable l := by
  induction l with
  | nil => simp [searchCreateTableFast, searchCreateTable,
      matchCreateTableFastAt_eq]
  | cons c rest ih =>
      simp only [searchCreateTableFast, searchCreateTable,
        matchCreateTableFastAt_eq, ih]

/-- The whole accumulator pipeline equals the program. -/
theorem extract_columns_eq_fast (s : List Char) :
    extract_columns_from_sql s = extractColumnsFast s := by
  simp only [extract_columns_from_sql, extractColumnsFast,
    searchCreateTableFast_eq, replaceEscNlAux_eq, List.reverse_nil,
    List.nil_append]
  cases h : searchCreateTable (replaceEscapedNewlines s) with
  | none => rfl
  | some v =>
      obtain ⟨nm, body⟩ := v
      simp only [splitOnCommaAux_eq, List.reverse_nil, List.nil_append]
      have hm : List.modifyHead (fun h => h) (splitOnComma body) =
          splitOnComma body := by
        cases splitOnComma body <;> simp
      rw [hm]

set_option maxRecDepth 8000 in
/-- C5: on the Address sample the function returns exactly the nine column
names, in order; the trailing `PRIMARY KEY` clause contributes nothing. -/
theorem address_sample_columns :
    extract_columns_from_sql address_sql =
      ["addressId".toList, "line1".toList, "line2".toList, "city".toList,
       "state".toList, "country".toList, "postalCode".toList,
       "created".toList, "modified".toList] := by
  rw [extract_columns_eq_fast]
  decide

set_option maxRecDepth 8000 in
/-- C6: on the Customer sample the function returns exactly the eleven column
names, in order; the trailing `PRIMARY KEY`, `UNIQUE KEY` and `KEY` clauses
contribute nothing. -/
theorem customer_sample_columns :
    extract_columns_from_sql customer_sql =
      ["customerId".toList, "entityId".toList, "entityLocationId".toList,
       "active".toList, "code".toList, "serviceRequestCode".toList,
       "status".toList, "createdByEntityEmployeeId".toList,
       "createdByIpAddress".toList, "created".toList, "modified".toList] := by
  rw [extract_columns_eq_fast]
  decide

/-- Soundness of the lazy group: a successful match decomposes the input. -/
theorem lazyBody_sound :
    ∀ (s b r : List Char), lazyBody s = some (b, r) →
      s = b ++ r ∧ b ≠ [] ∧ engineTail r = true := by
  intro s
  induction s with
  | nil => intro b r h; simp [lazyBody] at h
  | cons c rest ih =>
      intro b r h
      unfold lazyBody at h
      by_cases he : engineTail rest
      · rw [if_pos he] at h
        simp only [Option.some.injEq, Prod.mk.injEq] at h
        obtain ⟨hb, hr⟩ := h
        subst hb; subst hr
        exact ⟨rfl, by simp, he⟩
      · rw [if_neg he] at h
        cases hl : lazyBody rest with
        | none => rw [hl] at h; simp at h
        | some p =>
            rw [hl] at h
            obtain ⟨b0, r0⟩ := p
            simp only [Option.some.injEq, Prod.mk.injEq] at h
            obtain ⟨hb, hr⟩ := h
            obtain ⟨hs, hne, het⟩ := ih b0 r0 (by rw [hl])
            subst hb; subst hr
            refine ⟨?_, by simp, het⟩
            rw [List.cons_append, ← hs]

/-- Minimality of the lazy group: it is the shortest non-empty body whose
remainder matches the closing tail. -/
theorem lazyBody_minimal :
    ∀ (s b r : List Char), lazyBody s = some (b, r) →
      ∀ b2 r2, s = b2 ++ r2 → b2 ≠ [] → engineTail r2 = true →
        b.length ≤ b2.length := by
  intro s
  induction s with
  | nil => intro b r h; simp [lazyBody] at h
  | cons c rest ih =>
      intro b r h b2 r2 hsplit hne2 he2
      unfold lazyBody at h
      by_cases he : engineTail rest
      · rw [if_pos he] at h
        simp only [Option.some.injEq, Prod.mk.injEq] at h
        obtain ⟨hb, hr⟩ := h
        subst hb
        have : 0 < b2.length := List.length_pos.mpr hne2
        simpa using this
      · rw [if_neg he] at h
        cases hl : lazyBody rest with
        | none => rw [hl] at h; simp at h
        | some p =>
            rw [hl] at h
            obtain ⟨b0, r0⟩ := p
            simp only [Option.some.injEq, Prod.mk.injEq] at h
            obtain ⟨hb, hr⟩ := h
            subst hb
            cases b2 with
            | nil => exact absurd rfl hne2
            | cons x b2' =>
                simp only [List.cons_append, List.cons.injEq] at hsplit
                obtain ⟨hx, hrest⟩ := hsplit
                cases b2' with
                | nil =>
                    simp at hrest
                    rw [← hrest] at he2
                    exact absurd he2 (by simp [he])
                | cons y b2'' =>
                    have := ih b0 r0 (by rw [hl]) (y :: b2'') r2 hrest
                      (by simp) he2
                    simpa using Nat.succ_le_succ this
/-- Inversion of the closing tail: it is a close parenthesis followed, after
whitespace, by the `ENGINE` keyword. -/
theorem engineTail_inv (rest : List Char) (h : engineTail rest = true) :
    ∃ rest2, rest = ')' :: rest2 ∧
      startsWithCI ("ENGINE".toList) (rest2.dropWhile pyIsSpace) = true := by
  unfold engineTail at h
  split at h
  · rename_i rest2
    exact ⟨rest2, rfl, h⟩
  · simp at h

/-- Every character kept by `takeWhile` satisfies the predicate. -/
theorem all_takeWhile (p : Char → Bool) (l : List Char) :
    (l.takeWhile p).all p = true := by
  rw [List.all_eq_true]
  intro x hx
  exact List.mem_takeWhile_imp hx

/-- Inversion of the anchored match: a successful match exhibits the span
structure of the claim. -/
theorem matchCreateTableAt_span (s nm body : List Char)
    (h : matchCreateTableAt s = some (nm, body)) : BodySpan s nm body := by
  simp only [matchCreateTableAt] at h
  repeat' split at h
  all_goals try exact Option.noConfusion h
  rename_i h1 h2 x3 c s2 heq3 hc hne x2 d s3 heq2 hd x1 s4 heq1 xo b r heqL
  simp only [Option.some.injEq, Prod.mk.injEq] at h
  obtain ⟨hnm, hbody⟩ := h
  subst hc; subst hd; subst hnm; subst hbody
  obtain ⟨hs4, hbne, het⟩ := lazyBody_sound s4 b r heqL
  obtain ⟨rest2, hr2, heng⟩ := engineTail_inv r het
  have e2 : s.drop 12 =
      (s.drop 12).takeWhile pyIsSpace ++ (backtickChar :: s2) := by
    rw [← heq3]
    exact (List.takeWhile_append_dropWhile _ _).symm
  have e3 : s2 = s2.takeWhile (fun d => decide (d ≠ backtickChar)) ++
      (backtickChar :: s3) := by
    rw [← heq2]
    exact (List.takeWhile_append_dropWhile _ _).symm
  have e4 : s3 = s3.takeWhile pyIsSpace ++ ('(' :: s4) := by
    rw [← heq1]
    exact (List.takeWhile_append_dropWhile _ _).symm
  refine ⟨s.take 12 ++ (s.drop 12).takeWhile pyIsSpace,
    s3.takeWhile pyIsSpace, s4, r, rest2, ?_, all_takeWhile pyIsSpace s3,
    hs4, hbne, hr2, heng, ?_⟩
  · have hexp : s = s.take 12 ++ ((s.drop 12).takeWhile pyIsSpace ++
        (backtickChar :: (s2.takeWhile (fun d => decide (d ≠ backtickChar)) ++
          (backtickChar :: (s3.takeWhile pyIsSpace ++ ('(' :: s4)))))) := by
      rw [← e4, ← e3, ← e2]
      exact (List.take_append_drop 12 s).symm
    conv_lhs => rw [hexp]
    simp [List.append_assoc]
  · intro b2 r2 hb2 hne2 he2
    exact lazyBody_minimal s4 b r heqL b2 r2 hb2 hne2 he2
/-- The head of a normalized non-empty list is the original head or a
newline. -/
theorem replace_head (b : Char) (rest : List Char) :
    (replaceEscapedNewlines (b :: rest)).head? = some b ∨
    (replaceEscapedNewlines (b :: rest)).head? = some (Char.ofNat 10) := by
  cases rest with
  | nil => left; simp [replaceEscapedNewlines]
  | cons c t =>
      unfold replaceEscapedNewlines
      by_cases h : b = backslashChar ∧ c = 'n'
      · right; rw [if_pos h]; simp
      · left; rw [if_neg h]; simp

/-- Input without the escape sequence passes through unchanged. -/
theorem replace_id_of_no_esc (l : List Char) (h : hasEscNl l = false) :
    replaceEscapedNewlines l = l := by
  induction l using replaceEscapedNewlines.induct with
  | case1 => rfl
  | case2 a b rest hc ih =>
      exfalso
      simp [hasEscNl, hc.1, hc.2] at h
  | case3 a b rest hc ih =>
      unfold replaceEscapedNewlines
      rw [if_neg hc]
      have hrest : hasEscNl (b :: rest) = false := by
        unfold hasEscNl at h
        cases rest with
        | nil => simp [hasEscNl]
        | cons c t =>
            simp only [Bool.or_eq_false_iff] at h
            exact h.2
      rw [ih hrest]
  | case4 a => rfl

/-- The normalized output contains no remaining escape sequence. -/
theorem replace_no_esc (l : List Char) :
    hasEscNl (replaceEscapedNewlines l) = false := by
  induction l using replaceEscapedNewlines.induct with
  | case1 => rfl
  | case2 a b rest hc ih =>
      unfold replaceEscapedNewlines
      rw [if_pos hc]
      have hnl : Char.ofNat 10 ≠ backslashChar := by decide
      cases hr : replaceEscapedNewlines rest with
      | nil => simp [hasEscNl]
      | cons x t =>
          rw [hr] at ih
          simp [hasEscNl, ih, hnl]
  | case3 a b rest hc ih =>
      unfold replaceEscapedNewlines
      rw [if_neg hc]
      rcases replace_head b rest with hh | hh
      · cases hr : replaceEscapedNewlines (b :: rest) with
        | nil => simp [hasEscNl]
        | cons x t =>
            rw [hr] at ih hh
            simp only [List.head?_cons, Option.some.injEq] at hh
            subst hh
            by_cases ha : a = backslashChar
            · have hx : x ≠ 'n' := fun hb => hc ⟨ha, hb⟩
              simp [hasEscNl, ih, hx]
            · simp [hasEscNl, ih, ha]
      · cases hr : replaceEscapedNewlines (b :: rest) with
        | nil => simp [hasEscNl]
        | cons x t =>
            rw [hr] at ih hh
            simp only [List.head?_cons, Option.some.injEq] at hh
            subst hh
            have hx : Char.ofNat 10 ≠ 'n' := by decide
            by_cases ha : a = backslashChar
            · simp [hasEscNl, ih, hx]
            · simp [hasEscNl, ih, ha]
  | case4 a => simp [hasEscNl]
/-- C4: a successful search splits the normalized input at the match; within
the match, the captured body handed to the comma split is exactly the text
between the first opening parenthesis following the backtick-quoted table
name (only whitespace intervenes) and the closing parenthesis that precedes
the `ENGINE` keyword across whitespace only, taken at the earliest possible
closing position. -/
theorem captured_body_span (s nm body : List Char)
    (h : searchCreateTable (replaceEscapedNewlines s) = some (nm, body)) :
    extract_columns_from_sql s = (splitOnComma body).filterMap fragToCol ∧
    ∃ pre suf, replaceEscapedNewlines s = pre ++ suf ∧ BodySpan suf nm body := by
  constructor
  · simp only [extract_columns_from_sql, h]
  · obtain ⟨pre, suf, hc, hm⟩ := searchCreateTable_sound _ _ h
    exact ⟨pre, suf, hc, matchCreateTableAt_span suf nm body hm⟩

/-- C4 witness: the span property exhibited on a concrete statement. -/
theorem captured_body_span_witness :
    extract_columns_from_sql ("CREATE TABLE `t` (`a` x) ENGINE".toList) =
      (splitOnComma ("`a` x".toList)).filterMap fragToCol ∧
    ∃ pre suf,
      replaceEscapedNewlines ("CREATE TABLE `t` (`a` x) ENGINE".toList) =
        pre ++ suf ∧
      BodySpan suf ("t".toList) ("`a` x".toList) :=
  captured_body_span ("CREATE TABLE `t` (`a` x) ENGINE".toList)
    ("t".toList) ("`a` x".toList) (by decide)

/-- A character that does not start an occurrence of the escape sequence is
passed through unchanged and scanning continues on the remainder. -/
theorem replace_cons_of_not_esc (a : Char) (rest : List Char)
    (h : ¬(a = backslashChar ∧ rest.head? = some 'n')) :
    replaceEscapedNewlines (a :: rest) = a :: replaceEscapedNewlines rest := by
  cases rest with
  | nil => simp [replaceEscapedNewlines]
  | cons b t =>
      have hab : ¬(a = backslashChar ∧ b = 'n') := by
        intro hc
        exact h ⟨hc.1, by simp [hc.2]⟩
      conv_lhs => unfold replaceEscapedNewlines
      rw [if_neg hab]

/-- C7: the normalization step replaces every occurrence of the literal
backslash-n sequence with a newline character and changes nothing else.  The
second, third and fourth conjuncts together determine the scan uniquely by
induction: an occurrence at the front becomes a newline followed by the
normalized remainder, any other head character is kept unchanged with the
scan continuing behind it, and the empty input is unchanged.  In addition,
occurrence-free input passes through unchanged and no occurrence survives in
the output. -/
theorem normalize_replaces_escaped_newlines (l : List Char) :
    (hasEscNl l = false → replaceEscapedNewlines l = l) ∧
    (∀ rest, replaceEscapedNewlines (backslashChar :: 'n' :: rest) =
      Char.ofNat 10 :: replaceEscapedNewlines rest) ∧
    (∀ a rest, ¬(a = backslashChar ∧ rest.head? = some 'n') →
      replaceEscapedNewlines (a :: rest) = a :: replaceEscapedNewlines rest) ∧
    replaceEscapedNewlines [] = [] ∧
    hasEscNl (replaceEscapedNewlines l) = false :=
  ⟨replace_id_of_no_esc l,
   fun rest => by simp [replaceEscapedNewlines],
   replace_cons_of_not_esc,
   rfl,
   replace_no_esc l⟩

/-- C7 witness: the characterization applied at concrete inputs, including a
mid-string non-escape head passed through unchanged. -/
theorem normalize_replaces_escaped_newlines_witness :
    replaceEscapedNewlines ("abc".toList) = "abc".toList ∧
    replaceEscapedNewlines (backslashChar :: 'n' :: ("x".toList)) =
      Char.ofNat 10 :: replaceEscapedNewlines ("x".toList) ∧
    replaceEscapedNewlines ('a' :: (backslashChar :: 'n' :: ("b".toList))) =
      'a' :: replaceEscapedNewlines (backslashChar :: 'n' :: ("b".toList)) ∧
    replaceEscapedNewlines [] = [] ∧
    hasEscNl (replaceEscapedNewlines ("abc".toList)) = false :=
  ⟨(normalize_replaces_escaped_newlines ("abc".toList)).1 (by decide),
   (normalize_replaces_escaped_newlines ("abc".toList)).2.1 ("x".toList),
   (normalize_replaces_escaped_newlines ("abc".toList)).2.2.1 'a'
     (backslashChar :: 'n' :: ("b".toList)) (by decide),
   (normalize_replaces_escaped_newlines ("abc".toList)).2.2.2.1,
   (normalize_replaces_escaped_newlines ("abc".toList)).2.2.2.2⟩

/-- A name produced by the column regex is non-empty and backtick-free. -/
theorem extractColName_props (x name : List Char)
    (h : extractColName x = some name) :
    name ≠ [] ∧ backtickChar ∉ name := by
  unfold extractColName at h
  repeat' split at h
  all_goals simp at h
  obtain ⟨hne, hname⟩ := h
  constructor
  · rw [← hname]
    intro hemp
    rw [List.takeWhile_eq_nil_iff] at hemp
    obtain ⟨hlen, hhead⟩ := hne
    exact (hemp hlen) (by simpa using hhead)
  · intro hmem
    rw [← hname] at hmem
    have := List.mem_takeWhile_imp hmem
    simp at this

/-- C10: every string in the returned list is non-empty and contains no
backtick character, for every input. -/
theorem extracted_names_nonempty_no_backtick (s name : List Char)
    (h : name ∈ extract_columns_from_sql s) :
    name ≠ [] ∧ backtickChar ∉ name := by
  cases hs : searchCreateTable (replaceEscapedNewlines s) with
  | none =>
      have e : extract_columns_from_sql s = [] := by
        simp only [extract_columns_from_sql, hs]
      rw [e] at h
      simp at h
  | some v =>
      obtain ⟨nm, body⟩ := v
      have e : extract_columns_from_sql s =
          (splitOnComma body).filterMap fragToCol := by
        simp only [extract_columns_from_sql, hs]
      rw [e] at h
      rw [List.mem_filterMap] at h
      obtain ⟨part, _, hf⟩ := h
      have hf2 : extractColName (pyStrip part) = some name := by
        simp only [fragToCol] at hf
        by_cases hcon : isConstraintFragment (pyStrip part)
        · rw [if_pos hcon] at hf
          exact Option.noConfusion hf
        · rw [if_neg hcon] at hf
          exact hf
      exact extractColName_props (pyStrip part) name hf2

/-- C10 witness: the invariant checked on a name extracted from a concrete
statement. -/
theorem extracted_names_nonempty_no_backtick_witness :
    ("a".toList ≠ [] ∧ backtickChar ∉ ("a".toList)) :=
  extracted_names_nonempty_no_backtick
    ("CREATE TABLE `t` (`a` y) ENGINE".toList) ("a".toList) (by decide)
